import Mathlib

/-!
Shallow embedding of the Thread_Pool repository (src/SafeQueue.hpp,
src/ThreadPool.hpp, src/test.hpp) and proofs about the claims of its
specification.

The embedding has three layers:
* `SageQueue`: the mutex-protected FIFO of SafeQueue.hpp.  Each member
  function takes the queue's internal lock, so each one is a single atomic
  operation; it is modelled as a pure function on the underlying list.
* a functional model of `ThreadPool::submit` (argument binding, packaged
  task, future) for the sequential/value-level claims.
* an interleaving small-step model of the worker loop, `submit`, and
  `shutdown` for the concurrency claims.  Every atomic action of the C++
  code (one SafeQueue call, one atomic-flag access, one mutex or condition
  variable operation) is one labelled step.
-/

/-- SafeQueue.hpp: `SageQueue<T>` wraps a `std::queue<T>` whose every
operation runs under the queue's own internal mutex `_mtx`.  `std::queue`
pushes at the back and `front`/`pop` act on the front. -/
structure SageQueue (T : Type) where
  q : List T
deriving DecidableEq, Repr

namespace SageQueue

/-- Member `size()`: `_q.size()` under the lock. -/
def size (s : SageQueue T) : Nat := s.q.length

/-- Member `empty()`: `_q.empty()` under the lock. -/
def empty (s : SageQueue T) : Bool := s.q.isEmpty

/-- Member `push(x)`: `_q.push(x)` appends at the back. -/
def push (s : SageQueue T) (x : T) : SageQueue T := ⟨s.q ++ [x]⟩

/-- Member `pop()`: `_q.pop()` removes the front element.  On an empty queue
`std::queue::pop` is undefined behaviour; the undefined branch is `none`. -/
def pop? (s : SageQueue T) : Option (SageQueue T) :=
  match s.q with
  | [] => none
  | _ :: rest => some ⟨rest⟩

/-- Member `top()`: returns a copy of `_q.front()`.  On an empty queue
`std::queue::front` is undefined behaviour; the undefined branch is `none`. -/
def top? (s : SageQueue T) : Option T := s.q.head?

end SageQueue

/-- One operation applied to the task queue: a `push` by some submitter, or a
worker's `top()`-then-`pop()` pair (the only dequeue pattern in the code,
ThreadPool.hpp worker loop). -/
inductive QOp where
  | push (x : Nat)
  | deq
deriving DecidableEq, Repr

/-- The values pushed by a sequence of queue operations, in push order. -/
def pushesOf : List QOp → List Nat
  | [] => []
  | QOp.push x :: rest => x :: pushesOf rest
  | QOp.deq :: rest => pushesOf rest

/-- Run a sequence of queue operations from a given queue, accumulating the
dequeued values in dequeue order.  A `deq` on an empty queue hits the
undefined branch of `top()`/`pop()` and yields `none`. -/
def runOps : List QOp → SageQueue Nat → List Nat → Option (SageQueue Nat × List Nat)
  | [], s, out => some (s, out)
  | QOp.push x :: rest, s, out => runOps rest (s.push x) out
  | QOp.deq :: rest, s, out =>
      match s.top?, s.pop? with
      | some h, some s' => runOps rest s' (out ++ [h])
      | _, _ => none

/-- Ledger lemma: at every point, the dequeued values followed by the queue
contents equal the initial contents followed by all pushed values. -/
theorem runOps_ledger (ops : List QOp) :
    ∀ (s0 : SageQueue Nat) (out0 : List Nat) (s : SageQueue Nat) (out : List Nat),
    runOps ops s0 out0 = some (s, out) → out ++ s.q = out0 ++ s0.q ++ pushesOf ops := by
  induction ops with
  | nil =>
    intro s0 out0 s out h
    simp only [runOps, Option.some.injEq, Prod.mk.injEq] at h
    simp [← h.1, ← h.2, pushesOf]
  | cons op rest ih =>
    intro s0 out0 s out h
    cases op with
    | push x =>
      have h' := ih (s0.push x) out0 s out h
      simp only [SageQueue.push] at h'
      simp only [pushesOf]
      rw [h']
      simp
    | deq =>
      cases hq : s0.q with
      | nil =>
        simp only [runOps, SageQueue.top?, SageQueue.pop?, hq, List.head?_nil] at h
        exact Option.noConfusion h
      | cons a t =>
        simp only [runOps, SageQueue.top?, SageQueue.pop?, hq, List.head?] at h
        have h' := ih ⟨t⟩ (out0 ++ [a]) s out h
        simp only at h'
        simp only [pushesOf, hq]
        rw [h']
        simp

example : runOps [QOp.push 7, QOp.push 8, QOp.deq, QOp.push 9, QOp.deq, QOp.deq] ⟨[]⟩ []
    = some (⟨[]⟩, [7, 8, 9]) := by decide

/-!
Functional model of `ThreadPool::submit` (ThreadPool.hpp lines 27-39).

`submit(f, args...)` does, in order:
* `std::bind(std::forward<F>(f), std::forward<Args>(args)...)`: binds the
  argument VALUES at submission time into a zero-argument closure (`std::bind`
  decays its arguments, so the closure stores its own copies);
* wraps that closure into a `std::packaged_task<RT()>`; invoking a
  `packaged_task` runs the stored closure and stores either its return value
  or the exception it raised into the shared state read through the future —
  the invocation itself returns normally either way;
* pushes into the task queue the type-erased lambda that captures
  `task_ptr` and invokes the packaged task, and returns
  `task_ptr->get_future()`.

A callable that can fail is modelled as `α → Except E R`; the future's shared
state is a `FutureState E R`.
-/

/-- The shared state behind a `std::future`: unready, or holding the value, or
holding the captured exception. -/
inductive FutureState (E R : Type) where
  | pending
  | value (r : R)
  | failed (e : E)
deriving DecidableEq, Repr

/-- The call `std::bind(f, a)`: the argument value `a` is captured (copied) at
submission time into a zero-argument closure. -/
def bindArgs (f : α → Except E R) (a : α) : Unit → Except E R := fun _ => f a

/-- Invoking a `std::packaged_task`: runs the stored closure; a normal return
is stored as `value`, a raised exception is captured and stored as `failed`.
The invocation itself always returns normally, so the type-erased task the
worker runs is a total function into `FutureState`. -/
def runPackaged (func : Unit → Except E R) : FutureState E R :=
  match func () with
  | Except.ok r => FutureState.value r
  | Except.error e => FutureState.failed e

/-- The unit of work `submit` enqueues, paired with the future it feeds:
running `task` yields exactly the state the returned future will hold. -/
structure Submitted (E R : Type) where
  task : Unit → FutureState E R

namespace ThreadPool

/-- Member `ThreadPool::submit(f, a)`: bind the argument now, wrap in a packaged
task, enqueue the type-erased invocation. -/
def submit (f : α → Except E R) (a : α) : Submitted E R :=
  ⟨fun _ => runPackaged (bindArgs f a)⟩

end ThreadPool

/-- The worker body runs each dequeued task closure in turn; because a
packaged task captures exceptions instead of propagating them, the worker
survives every task and produces one outcome per task. -/
def drainList : List (Unit → FutureState E R) → List (FutureState E R)
  | [] => []
  | t :: rest => t () :: drainList rest

/-- A pool viewed at the value level: its FIFO task queue of type-erased
closures (the futures' states are the values the closures produce). -/
structure FnPool (E R : Type) where
  tasks : SageQueue (Unit → FutureState E R)

namespace FnPool

/-- Method `submit` pushes the packaged closure at the back of the task queue. -/
def submit (p : FnPool E R) (f : α → Except E R) (a : α) : FnPool E R :=
  ⟨p.tasks.push (ThreadPool.submit f a).task⟩

/-- A single worker dequeuing from the front until the queue is empty and
running every task: the futures become ready in submission order. -/
def drain (p : FnPool E R) : List (FutureState E R) := drainList p.tasks.q

end FnPool

/-- The closure built at submission time is executed only later, after the
submitter's variable may have changed; the bound copy is what the task sees.
The second argument is the (ignored) later value of the variable. -/
def runAfterChange (f : Int → Except E R) (xAtSubmit : Int) (xLater : Int) :
    FutureState E R :=
  (ThreadPool.submit f xAtSubmit).task ()

/-- Scenario of spec section 8: `f(x) = x * 2` submitted for x = 1..10. -/
def doubleFn (x : Int) : Except String Int := Except.ok (x * 2)

/-- The pool of scenario 1 after the ten submissions. -/
def scenarioPool : FnPool String Int :=
  (List.range 10).foldl (fun p i => p.submit doubleFn (Int.ofNat i + 1)) ⟨⟨[]⟩⟩

/-- A callable that raises on input 0, matching spec scenario 3 (a
division-by-zero style fault). -/
def faultyDiv (x : Int) : Except String Int :=
  if x = 0 then Except.error "division by zero" else Except.ok (100 / x)

/-!
Model of `TEST1::addition_store` (test.hpp lines 31-34) and its submission
(test.hpp lines 55-60).  `addition_store(int a, int b, int &ans)` writes
`a + b` through its reference parameter; the write is modelled by returning
the new value of the `ans` storage the callable was given.  Because
`std::bind` inside `submit` decays `int&` to `int`, the bound closure owns a
copy of the caller's variable, and the task's write lands in that copy.
-/

/-- Function `addition_store` viewed on the storage it writes: given `a`, `b` and the
current contents of `ans`, the call leaves `a + b` in `ans`. -/
def addition_store (a b : Int) (ans : Int) : Int := a + b

/-- Outcome of `auto f1 = pool.submit(addition_store, a1, b1, c1); f1.get()`:
the submitter's variable afterwards, and the closure's internal copy. -/
structure StoreOutcome where
  callerVar : Int
  boundCopy : Int
deriving DecidableEq, Repr

/-- The call `submit(addition_store, a, b, c1)` with the decaying `std::bind`: the
closure receives a copy of `c1`; running the task writes into the copy and
the caller's variable is untouched. -/
def submitStoreByBind (a b c1 : Int) : StoreOutcome :=
  let copy := c1
  { callerVar := c1, boundCopy := addition_store a b copy }

/-- C4: a callable raising an exception has the failure captured into the
future by the packaged task; the type-erased task itself returns normally, so
the worker loop (`drainList`) completes one outcome for every task no matter
how many fail. -/
theorem task_failure_captured_in_future
    (f : Int → Except String Int) (a : Int) (e : String)
    (hfail : f a = Except.error e) :
    (ThreadPool.submit f a).task () = FutureState.failed e ∧
    ∀ ts : List (Unit → FutureState String Int), (drainList ts).length = ts.length := by
  constructor
  · simp [ThreadPool.submit, runPackaged, bindArgs, hfail]
  · intro ts
    induction ts with
    | nil => rfl
    | cons t rest ih => simp [drainList, ih]

/-- Witness for C4 at the concrete division-by-zero callable of scenario 3. -/
theorem task_failure_captured_in_future_witness :
    faultyDiv 0 = Except.error "division by zero" ∧
    (ThreadPool.submit faultyDiv 0).task () = FutureState.failed "division by zero" :=
  ⟨by simp [faultyDiv],
   (task_failure_captured_in_future faultyDiv 0 "division by zero" (by simp [faultyDiv])).1⟩

/-- C7: arguments are bound at submission time: the task's result does not
depend on the variable's later value, and the one-worker scenario of spec
section 8 (submit `f(x) = x * 2` for x = 1..10, read the handles in
submission order) yields 2, 4, ..., 20. -/
theorem submit_binds_arguments_at_submission_time :
    (∀ (f : Int → Except String Int) (x y y' : Int),
        runAfterChange f x y = runAfterChange f x y') ∧
    scenarioPool.drain =
      [FutureState.value 2, FutureState.value 4, FutureState.value 6,
       FutureState.value 8, FutureState.value 10, FutureState.value 12,
       FutureState.value 14, FutureState.value 16, FutureState.value 18,
       FutureState.value 20] := by
  constructor
  · intro f x y y'
    rfl
  · rfl

/-- C9: the bound closure stores its own copy of the lvalue argument; the
task's write through the reference parameter modifies the copy (which ends up
holding `a + b`) and the submitter's original variable keeps its old value. -/
theorem bind_decays_reference_argument (a b c1 : Int) :
    (submitStoreByBind a b c1).callerVar = c1 ∧
    (submitStoreByBind a b c1).boundCopy = a + b :=
  ⟨rfl, rfl⟩

/-- C5: dequeue order is strictly FIFO.  For every sequence of pushes
interleaved with worker dequeues (each a `top()`-then-`pop()` on the front),
the dequeued values are exactly the earliest pushed values in push order, and
the queue retains the rest: so a task pushed strictly earlier is dequeued no
later than one pushed after it. -/
theorem fifo_dequeue_order (ops : List QOp) (s : SageQueue Nat) (out : List Nat)
    (h : runOps ops ⟨[]⟩ [] = some (s, out)) :
    out = (pushesOf ops).take out.length ∧ s.q = (pushesOf ops).drop out.length := by
  have hl := runOps_ledger ops ⟨[]⟩ [] s out h
  simp only [List.nil_append] at hl
  constructor
  · rw [← hl, List.take_left]
  · rw [← hl, List.drop_left]

/-- Witness for C5: three pushes with two interleaved dequeues come out in
push order. -/
theorem fifo_dequeue_order_witness :
    runOps [QOp.push 5, QOp.push 6, QOp.deq, QOp.push 7, QOp.deq] ⟨[]⟩ []
      = some (⟨[7]⟩, [5, 6]) ∧
    [5, 6] = (pushesOf [QOp.push 5, QOp.push 6, QOp.deq, QOp.push 7, QOp.deq]).take 2 :=
  ⟨by decide,
   by
    have h := fifo_dequeue_order [QOp.push 5, QOp.push 6, QOp.deq, QOp.push 7, QOp.deq]
      ⟨[7]⟩ [5, 6] (by decide)
    exact h.1⟩

/-!
Interleaving model of the pool (ThreadPool.hpp).

Shared state and its protection in the source:
* `_tasks : SageQueue<TaskType>` — every call locks only the queue's OWN
  internal mutex, so each call is one atomic step;
* `_shutdown : std::atomic<bool>` — each read/write is one atomic step;
* `_mtx : std::mutex` — acquired ONLY by the worker loop (`submit` and
  `shutdown` never lock it);
* `_tasks_empty : std::condition_variable` — waited on by workers under
  `_mtx`; notified by `submit` (notify_one) and `shutdown` (notify_all)
  without holding `_mtx`.

Each worker runs `ThreadWorker::operator()` (lines 63-77); its program
counter enumerates the atomic actions of that loop body in source order.
Tasks are identified by their submission index; executing a task records its
id in `execed` (which also makes the task's future ready).
-/

/-- Program counter of one worker thread, one value per atomic action of
`ThreadWorker::operator()`:
* `checkFlag`: read `_shutdown` in the `while` condition;
* `checkEmptyTop`: `_shutdown` was true; read `_tasks.empty()` in the `while`
  condition; if empty the loop (and the thread) exits;
* `acquire`: construct `std::unique_lock lock(_pool->_mtx)`;
* `waitCheckE`: read `_tasks.empty()` in the wait guard;
* `waitCheckF e1`: read `_shutdown` in the wait guard; if `e1` and the flag
  is clear, call `wait(lock)` (atomically release `_mtx` and block);
* `waiting`: blocked inside `wait`;
* `reacquire`: woken; `wait` re-acquires `_mtx` before returning;
* `checkEmpty2`: read `_tasks.empty()` in the dequeue `if`;
* `takeTop`: call `_tasks.top()`;
* `takePop h`: `func` holds task `h`; call `_tasks.pop()`;
* `postTake g`: `gotten` is set (`g = some h` when a task was taken);
* `executing h`: run `func()` — note the `unique_lock` is still alive here,
  since its scope is the whole loop body;
* `unlock`: the loop body ends and the `unique_lock` destructor releases
  `_mtx`;
* `exited`: the `while` loop has exited and the thread returned. -/
inductive WPC where
  | checkFlag
  | checkEmptyTop
  | acquire
  | waitCheckE
  | waitCheckF (e1 : Bool)
  | waiting
  | reacquire
  | checkEmpty2
  | takeTop
  | takePop (h : Nat)
  | postTake (g : Option Nat)
  | executing (h : Nat)
  | unlock
  | exited
deriving DecidableEq, Repr

/-- Pcs at which the worker holds `_pool->_mtx`. -/
def holdsMtx : WPC → Bool
  | WPC.waitCheckE => true
  | WPC.waitCheckF _ => true
  | WPC.checkEmpty2 => true
  | WPC.takeTop => true
  | WPC.takePop _ => true
  | WPC.postTake _ => true
  | WPC.executing _ => true
  | WPC.unlock => true
  | _ => false

/-- The task id a worker has removed from the queue but not yet finished
executing (held in its local `func` with `gotten == true`). -/
def inHand : WPC → Option Nat
  | WPC.postTake (some h) => some h
  | WPC.executing h => some h
  | _ => none

/-- All task ids currently held by workers between `pop()` and the end of
`func()`. -/
def handsOf (pcs : List WPC) : List Nat := pcs.filterMap inHand

/-- Global configuration: the pool's shared state, every worker's pc, the
submit/shutdown threads' progress, and the ledger of pushed / removed /
executed task ids. -/
structure Config where
  tasks : SageQueue Nat
  flag : Bool
  mtx : Option Nat
  cv : List Nat
  pcs : List WPC
  pushed : List (Nat × Bool)
  removed : List Nat
  execed : List Nat
  nextId : Nat
  pending : Nat
  sd : Nat
deriving DecidableEq, Repr

/-- A schedulable atomic action.  `wstep i` lets worker `i` take its next
action; `subPush` is a submitter's `_tasks.push(...)`; `subNotify j` is the
matching `_tasks_empty.notify_one()` delivered to (or lost by) worker `j`;
`spurious j` is a spurious wakeup of a blocked worker (allowed by
`std::condition_variable`); `sdSetFlag`, `sdNotifyAll`, `sdJoin` are the
three phases of `shutdown()`. -/
inductive Label where
  | wstep (i : Nat)
  | subPush
  | subNotify (j : Nat)
  | spurious (j : Nat)
  | sdSetFlag
  | sdNotifyAll
  | sdJoin
deriving DecidableEq, Repr

/-- Wake every worker in the list: each leaves the condition variable and
must re-acquire `_mtx` inside `wait` before continuing. -/
def wakeAll (pcs : List WPC) : List Nat → List WPC
  | [] => pcs
  | j :: rest => wakeAll (pcs.set j WPC.reacquire) rest

/-- All worker threads have returned (so every `join()` in `shutdown`
completes). -/
def allExited (pcs : List WPC) : Bool :=
  pcs.all (fun pc => decide (pc = WPC.exited))

/-- One atomic action of worker `i` whose current pc is `pc`.  `none` means
the action is not enabled (the worker is blocked, has exited, or would hit
the undefined empty-queue branch of `top()`/`pop()`). -/
def wstepAux (c : Config) (i : Nat) : WPC → Option Config
  | WPC.checkFlag =>
      some { c with
             pcs := c.pcs.set i (if c.flag then WPC.checkEmptyTop else WPC.acquire) }
  | WPC.checkEmptyTop =>
      some { c with
             pcs := c.pcs.set i (if c.tasks.empty then WPC.exited else WPC.acquire) }
  | WPC.acquire =>
      match c.mtx with
      | none => some { c with mtx := some i, pcs := c.pcs.set i WPC.waitCheckE }
      | some _ => none
  | WPC.waitCheckE =>
      some { c with pcs := c.pcs.set i (WPC.waitCheckF c.tasks.empty) }
  | WPC.waitCheckF e1 =>
      if e1 && !c.flag then
        some { c with
               mtx := none
               cv := c.cv ++ [i]
               pcs := c.pcs.set i WPC.waiting }
      else
        some { c with pcs := c.pcs.set i WPC.checkEmpty2 }
  | WPC.waiting => none
  | WPC.reacquire =>
      match c.mtx with
      | none => some { c with mtx := some i, pcs := c.pcs.set i WPC.checkEmpty2 }
      | some _ => none
  | WPC.checkEmpty2 =>
      some { c with
             pcs := c.pcs.set i (if c.tasks.empty then WPC.postTake none else WPC.takeTop) }
  | WPC.takeTop =>
      match c.tasks.top? with
      | some h => some { c with pcs := c.pcs.set i (WPC.takePop h) }
      | none => none
  | WPC.takePop h =>
      match c.tasks.pop? with
      | some q' =>
          some { c with
                 tasks := q'
                 removed := c.removed ++ [h]
                 pcs := c.pcs.set i (WPC.postTake (some h)) }
      | none => none
  | WPC.postTake g =>
      match g with
      | some h => some { c with pcs := c.pcs.set i (WPC.executing h) }
      | none => some { c with pcs := c.pcs.set i WPC.unlock }
  | WPC.executing h =>
      some { c with execed := c.execed ++ [h], pcs := c.pcs.set i WPC.unlock }
  | WPC.unlock =>
      some { c with mtx := none, pcs := c.pcs.set i WPC.checkFlag }
  | WPC.exited => none

/-- The transition function of the whole system. -/
def step (c : Config) : Label → Option Config
  | Label.wstep i =>
      match c.pcs.get? i with
      | some pc => wstepAux c i pc
      | none => none
  | Label.subPush =>
      some { c with
             tasks := c.tasks.push c.nextId
             pushed := c.pushed ++ [(c.nextId, !c.flag)]
             nextId := c.nextId + 1
             pending := c.pending + 1 }
  | Label.subNotify j =>
      match c.pending with
      | 0 => none
      | p + 1 =>
          if c.cv = [] then some { c with pending := p }
          else if j ∈ c.cv then
            some { c with
                   pending := p
                   cv := c.cv.erase j
                   pcs := c.pcs.set j WPC.reacquire }
          else none
  | Label.spurious j =>
      if j ∈ c.cv then
        some { c with cv := c.cv.erase j, pcs := c.pcs.set j WPC.reacquire }
      else none
  | Label.sdSetFlag =>
      if c.sd = 0 then some { c with flag := true, sd := 1 } else none
  | Label.sdNotifyAll =>
      if c.sd = 1 then
        some { c with pcs := wakeAll c.pcs c.cv, cv := [], sd := 2 }
      else none
  | Label.sdJoin =>
      if c.sd = 2 && allExited c.pcs then some { c with sd := 3 } else none

/-- Run a schedule of atomic actions. -/
def runSched : List Label → Config → Option Config
  | [], c => some c
  | l :: ls, c =>
      match step c l with
      | some c' => runSched ls c'
      | none => none

/-- Constructor `ThreadPool(n)` (ThreadPool.hpp lines 13-17): `_threads(n)` makes `n`
worker slots, `_shutdown(false)`, and the loop starts each worker at the top
of its loop.  There is no validation of `n`. -/
def initConfig (n : Nat) : Config :=
  { tasks := ⟨[]⟩, flag := false, mtx := none, cv := [],
    pcs := List.replicate n WPC.checkFlag,
    pushed := [], removed := [], execed := [], nextId := 0, pending := 0,
    sd := 0 }

/-- A configuration the pool with `n` workers can reach under some
interleaving. -/
def ReachableCfg (n : Nat) (c : Config) : Prop :=
  ∃ ls : List Label, runSched ls (initConfig n) = some c

/-- Schedule exhibiting the lost wakeup: the worker reads `_tasks.empty()`
(true) inside the wait guard; a concurrent `submit` then pushes a task and
its `notify_one` finds no waiter (the notification is lost); the worker then
reads `_shutdown` (false) and calls `wait`, blocking with a task queued. -/
def lostWakeupSched : List Label :=
  [Label.wstep 0, Label.wstep 0, Label.wstep 0,
   Label.subPush, Label.subNotify 0, Label.wstep 0]

/-- The configuration the lost-wakeup schedule ends in. -/
def lostWakeupCfg : Config :=
  { tasks := ⟨[0]⟩, flag := false, mtx := none, cv := [0],
    pcs := [WPC.waiting], pushed := [(0, true)], removed := [], execed := [],
    nextId := 1, pending := 0, sd := 0 }

/-- C2 fails on the code: in a pool with one worker and one concurrent
`submit()`, the system reaches a state in which the worker is blocked on the
condition variable while the task queue is non-empty.  The guard's
empty-check and the `wait` are NOT one atomic step with respect to `submit`,
because `submit` pushes under `SafeQueue`'s internal mutex and notifies
without ever locking the pool's `_mtx`. -/
theorem worker_blocks_while_queue_nonempty :
    runSched lostWakeupSched (initConfig 1) = some lostWakeupCfg ∧
    lostWakeupCfg.pcs = [WPC.waiting] ∧
    lostWakeupCfg.cv = [0] ∧
    lostWakeupCfg.tasks.q = [0] ∧
    lostWakeupCfg.flag = false := by
  refine ⟨?_, rfl, rfl, rfl, rfl⟩
  decide

/-- Schedule in which one task is submitted and the single worker dequeues
it and starts running it. -/
def execUnderLockSched : List Label :=
  [Label.subPush, Label.wstep 0, Label.wstep 0, Label.wstep 0, Label.wstep 0,
   Label.wstep 0, Label.wstep 0, Label.wstep 0, Label.wstep 0]

/-- The configuration reached when the worker is inside `func()`. -/
def execUnderLockCfg : Config :=
  { tasks := ⟨[]⟩, flag := false, mtx := some 0, cv := [],
    pcs := [WPC.executing 0], pushed := [(0, true)], removed := [0],
    execed := [], nextId := 1, pending := 1, sd := 0 }

/-- C3 fails on the code: the worker reaches `func()` while still holding
`_pool->_mtx` — the `std::unique_lock` lives until the end of the loop body,
which is after the `if (gotten) func();` statement, so every task is
executed with the pool lock held and no other worker can dequeue meanwhile
(`acquire` by another worker is disabled while `mtx` is taken). -/
theorem task_executed_while_holding_lock :
    runSched execUnderLockSched (initConfig 1) = some execUnderLockCfg ∧
    execUnderLockCfg.pcs = [WPC.executing 0] ∧
    execUnderLockCfg.mtx = some 0 := by
  refine ⟨?_, rfl, rfl⟩
  decide

/-! Helper lemmas about `List.set`, `List.get?` and `handsOf`. -/

theorem lt_of_get?_eq_some {l : List α} :
    ∀ {i : Nat} {x : α}, l.get? i = some x → i < l.length := by
  induction l with
  | nil => intro i x h; cases h
  | cons a t ih =>
    intro i x h
    cases i with
    | zero => exact Nat.succ_pos _
    | succ n => exact Nat.succ_lt_succ (ih h)

theorem get?_set_self' (l : List α) :
    ∀ (i : Nat) (v : α), (l.set i v).get? i = (l.get? i).map (fun _ => v) := by
  induction l with
  | nil => intro i v; cases i <;> rfl
  | cons a t ih =>
    intro i v
    cases i with
    | zero => rfl
    | succ n => exact ih n v

theorem get?_set_ne' (l : List α) :
    ∀ (i j : Nat) (v : α), i ≠ j → (l.set i v).get? j = l.get? j := by
  induction l with
  | nil => intro i j v _; cases i <;> rfl
  | cons a t ih =>
    intro i j v hne
    cases i with
    | zero =>
      cases j with
      | zero => exact absurd rfl hne
      | succ m => rfl
    | succ n =>
      cases j with
      | zero => rfl
      | succ m => exact ih n m v (fun hnm => hne (by rw [hnm]))

theorem get?_set_cases {l : List α} {i j : Nat} {v x : α}
    (h : (l.set i v).get? j = some x) :
    (j = i ∧ x = v ∧ i < l.length) ∨ (j ≠ i ∧ l.get? j = some x) := by
  by_cases hji : j = i
  · subst hji
    rw [get?_set_self' l j v] at h
    cases hg : l.get? j with
    | none => rw [hg] at h; cases h
    | some y =>
      rw [hg] at h
      simp only [Option.map_some', Option.some.injEq] at h
      exact Or.inl ⟨rfl, h.symm, lt_of_get?_eq_some hg⟩
  · exact Or.inr ⟨hji, by rw [get?_set_ne' l i j v (fun hij => hji hij.symm)] at h; exact h⟩

theorem handsOf_cons (x : WPC) (t : List WPC) :
    handsOf (x :: t) = (inHand x).toList ++ handsOf t := by
  cases hx : inHand x <;> simp [handsOf, List.filterMap_cons, hx]

theorem count_handsOf_set (l : List WPC) :
    ∀ (i : Nat) (old v : WPC) (a : Nat), l.get? i = some old →
    (handsOf (l.set i v)).count a + ((inHand old).toList).count a
      = (handsOf l).count a + ((inHand v).toList).count a := by
  induction l with
  | nil => intro i old v a h; cases h
  | cons b t ih =>
    intro i old v a h
    cases i with
    | zero =>
      have hb : b = old := by
        simpa using h
      subst hb
      simp only [List.set, handsOf_cons, List.count_append]
      omega
    | succ n =>
      simp only [List.get?] at h
      simp only [List.set, handsOf_cons, List.count_append]
      have := ih n old v a h
      omega

theorem handsOf_eq_nil (l : List WPC) (h : ∀ pc ∈ l, pc = WPC.exited) :
    handsOf l = [] := by
  induction l with
  | nil => rfl
  | cons b t ih =>
    have hb : b = WPC.exited := h b (List.mem_cons_self b t)
    subst hb
    simp only [handsOf_cons]
    exact ih (fun pc hpc => h pc (List.mem_cons_of_mem _ hpc))

theorem wakeAll_get? (cv : List Nat) :
    ∀ (pcs : List WPC) (k : Nat),
    (wakeAll pcs cv).get? k
      = if k ∈ cv then (pcs.get? k).map (fun _ => WPC.reacquire) else pcs.get? k := by
  induction cv with
  | nil => intro pcs k; simp [wakeAll]
  | cons j rest ih =>
    intro pcs k
    simp only [wakeAll]
    rw [ih]
    by_cases hk : k ∈ rest
    · simp only [hk, if_true, List.mem_cons, or_true, if_true]
      by_cases hkj : k = j
      · subst hkj
        rw [get?_set_self']
        cases pcs.get? k <;> rfl
      · rw [get?_set_ne' pcs j k _ (fun hjk => hkj hjk.symm)]
    · simp only [hk, if_false]
      by_cases hkj : k = j
      · subst hkj
        simp only [List.mem_cons, true_or, if_true]
        rw [get?_set_self']
      · simp only [List.mem_cons, hkj, hk, or_self, if_false]
        rw [get?_set_ne' pcs j k _ (fun hjk => hkj hjk.symm)]

theorem count_handsOf_wakeAll (cv : List Nat) :
    ∀ (pcs : List WPC), cv.Nodup →
    (∀ j ∈ cv, pcs.get? j = some WPC.waiting) →
    ∀ a, (handsOf (wakeAll pcs cv)).count a = (handsOf pcs).count a := by
  induction cv with
  | nil => intro pcs _ _ a; rfl
  | cons j rest ih =>
    intro pcs hnd hw a
    simp only [wakeAll]
    have hj : pcs.get? j = some WPC.waiting := hw j (List.mem_cons_self j rest)
    have hrest : ∀ k ∈ rest, (pcs.set j WPC.reacquire).get? k = some WPC.waiting := by
      intro k hk
      have hkj : k ≠ j := fun hkj => (List.nodup_cons.1 hnd).1 (hkj ▸ hk)
      rw [get?_set_ne' pcs j k _ (fun hjk => hkj hjk.symm)]
      exact hw k (List.mem_cons_of_mem _ hk)
    rw [ih (pcs.set j WPC.reacquire) (List.nodup_cons.1 hnd).2 hrest a]
    have := count_handsOf_set pcs j WPC.waiting WPC.reacquire a hj
    simpa using this

/-- Inductive invariant of the pool model.  The pieces:
* `lenPcs`: the worker count is fixed at construction;
* `ledger`: the removed ids followed by the queued ids are exactly the pushed
  ids in push order (each push is delivered to at most one pop, FIFO);
* `ids`: submissions are numbered 0, 1, ...;
* `mtxHold`: a worker whose pc lies inside the `unique_lock` scope is the
  mutex owner (so at most one worker is inside that scope);
* `cvWait`/`cvNodup`: the wait set holds exactly blocked workers, once each;
* `topNE`/`popHead`: at every `top()`/`pop()` call site the queue is
  non-empty and its head is the value `top()` returned;
* `acc`: every removed id is accounted for, either already executed or in
  the hands of exactly one worker;
* `ceFlag`/`exFlag`: the while-condition's emptiness check and the exit state
  are reached only after the shutdown flag was observed true;
* `exRem`: once some worker has exited, every task pushed before the
  shutdown request has been removed from the queue;
* `sdDone`: once `shutdown()` has returned, every worker has exited. -/
structure PoolInv (n : Nat) (c : Config) : Prop where
  lenPcs : c.pcs.length = n
  ledger : c.removed ++ c.tasks.q = c.pushed.map Prod.fst
  ids : c.pushed.map Prod.fst = List.range c.nextId
  mtxHold : ∀ i pc, c.pcs.get? i = some pc → holdsMtx pc = true → c.mtx = some i
  cvWait : ∀ j, j ∈ c.cv → c.pcs.get? j = some WPC.waiting
  cvNodup : c.cv.Nodup
  topNE : ∀ i, c.pcs.get? i = some WPC.takeTop → c.tasks.q ≠ []
  popHead : ∀ i h, c.pcs.get? i = some (WPC.takePop h) → c.tasks.q.head? = some h
  acc : ∀ a, c.removed.count a = c.execed.count a + (handsOf c.pcs).count a
  ceFlag : ∀ i, c.pcs.get? i = some WPC.checkEmptyTop → c.flag = true
  exFlag : ∀ i, c.pcs.get? i = some WPC.exited → c.flag = true
  exRem : ∀ i, c.pcs.get? i = some WPC.exited →
    ∀ t, (t, true) ∈ c.pushed → t ∈ c.removed
  sdDone : c.sd = 3 → ∀ i pc, c.pcs.get? i = some pc → pc = WPC.exited

/-- Lookup `get?` of a replicated list. -/
theorem get?_replicate {x : α} :
    ∀ (n i : Nat) {y : α}, (List.replicate n x).get? i = some y → y = x := by
  intro n
  induction n with
  | zero => intro i y h; cases h
  | succ m ih =>
    intro i y h
    cases i with
    | zero => simpa using h.symm
    | succ k => exact ih k h

/-- The invariant holds at construction. -/
theorem inv_init (n : Nat) : PoolInv n (initConfig n) := by
  refine ⟨?_, ?_, ?_, ?_, ?_, ?_, ?_, ?_, ?_, ?_, ?_, ?_, ?_⟩
  · exact List.length_replicate n _
  · rfl
  · rfl
  · intro i pc h hh
    have := get?_replicate n i h
    subst this
    cases hh
  · intro j hj; cases hj
  · exact List.nodup_nil
  · intro i h
    have := get?_replicate n i h
    cases this
  · intro i h hh
    have := get?_replicate n i hh
    cases this
  · intro a
    have hh : handsOf (List.replicate n WPC.checkFlag) = [] := by
      induction n with
      | zero => rfl
      | succ m ih => simpa [List.replicate, handsOf_cons, inHand] using ih
    simp [initConfig, hh]
  · intro i h
    have := get?_replicate n i h
    cases this
  · intro i h
    have := get?_replicate n i h
    cases this
  · intro i h
    have := get?_replicate n i h
    cases this
  · intro h; cases h

theorem wakeAll_length (cv : List Nat) :
    ∀ pcs : List WPC, (wakeAll pcs cv).length = pcs.length := by
  induction cv with
  | nil => intro pcs; rfl
  | cons j rest ih => intro pcs; simp [wakeAll, ih, List.length_set]

/-- Preservation of the invariant under a step that only rewrites worker
`i`'s pc (every other component of the configuration unchanged). -/
theorem inv_set_pc {n : Nat} {c : Config} (inv : PoolInv n c) (i : Nat)
    (old new : WPC) (newMtx : Option Nat)
    (hget : c.pcs.get? i = some old)
    (hwait : old ≠ WPC.waiting)
    (hexold : old ≠ WPC.exited)
    (hhold : holdsMtx new = true → newMtx = some i)
    (hothers : ∀ j q, j ≠ i → c.pcs.get? j = some q → holdsMtx q = true →
      newMtx = some j)
    (hhand : inHand new = inHand old)
    (htop : new = WPC.takeTop → c.tasks.q ≠ [])
    (hpop : ∀ h, new = WPC.takePop h → c.tasks.q.head? = some h)
    (hce : new = WPC.checkEmptyTop → c.flag = true)
    (hexf : new = WPC.exited → c.flag = true)
    (hexr : new = WPC.exited → ∀ t, (t, true) ∈ c.pushed → t ∈ c.removed) :
    PoolInv n { c with mtx := newMtx, pcs := c.pcs.set i new } := by
  refine ⟨?_, inv.ledger, inv.ids, ?_, ?_, inv.cvNodup, ?_, ?_, ?_, ?_, ?_, ?_, ?_⟩
  · simp [List.length_set, inv.lenPcs]
  · intro j q hq hh
    rcases get?_set_cases hq with ⟨rfl, rfl, _⟩ | ⟨hne, hold⟩
    · exact hhold hh
    · exact hothers j q hne hold hh
  · intro j hj
    have hjw := inv.cvWait j hj
    have hji : j ≠ i := by
      intro hji
      subst hji
      rw [hget] at hjw
      injection hjw with hw
      exact hwait hw
    rw [get?_set_ne' c.pcs i j new (fun hij => hji hij.symm)]
    exact hjw
  · intro j hj
    rcases get?_set_cases hj with ⟨rfl, rfl, _⟩ | ⟨hne, hold⟩
    · exact htop rfl
    · exact inv.topNE j hold
  · intro j h hj
    rcases get?_set_cases hj with ⟨rfl, rfl2, _⟩ | ⟨hne, hold⟩
    · exact hpop h rfl2.symm
    · exact inv.popHead j h hold
  · intro a
    have hset := count_handsOf_set c.pcs i old new a hget
    rw [hhand] at hset
    have := inv.acc a
    simp only at hset ⊢
    omega
  · intro j hj
    rcases get?_set_cases hj with ⟨rfl, rfl, _⟩ | ⟨hne, hold⟩
    · exact hce rfl
    · exact inv.ceFlag j hold
  · intro j hj
    rcases get?_set_cases hj with ⟨rfl, rfl, _⟩ | ⟨hne, hold⟩
    · exact hexf rfl
    · exact inv.exFlag j hold
  · intro j hj
    rcases get?_set_cases hj with ⟨rfl, rfl, _⟩ | ⟨hne, hold⟩
    · exact hexr rfl
    · exact inv.exRem j hold
  · intro h3
    exact absurd (inv.sdDone h3 i old hget) hexold

/-- Invariant preservation for the `wait(lock)` call: the worker atomically
releases `_mtx`, enters the wait set and blocks. -/
theorem inv_wait {n : Nat} {c : Config} {i : Nat} {e1 : Bool}
    (inv : PoolInv n c) (hget : c.pcs.get? i = some (WPC.waitCheckF e1)) :
    PoolInv n { c with
                mtx := none
                cv := c.cv ++ [i]
                pcs := c.pcs.set i WPC.waiting } := by
  have hmi : c.mtx = some i := inv.mtxHold i _ hget rfl
  have hicv : i ∉ c.cv := by
    intro hi
    have hw := inv.cvWait i hi
    rw [hget] at hw
    exact WPC.noConfusion (Option.some.inj hw)
  refine ⟨?_, inv.ledger, inv.ids, ?_, ?_, ?_, ?_, ?_, ?_, ?_, ?_, ?_, ?_⟩
  · simp [List.length_set, inv.lenPcs]
  · intro j q hq hh
    rcases get?_set_cases hq with ⟨rfl, rfl, _⟩ | ⟨hne, hold⟩
    · exact Bool.noConfusion hh
    · have hj := inv.mtxHold j q hold hh
      rw [hmi] at hj
      exact absurd (Option.some.inj hj) (fun hij => hne hij.symm)
  · intro j hj
    rcases List.mem_append.1 hj with hj1 | hj2
    · have hji : j ≠ i := fun hji => hicv (hji ▸ hj1)
      rw [get?_set_ne' c.pcs i j _ (fun hij => hji hij.symm)]
      exact inv.cvWait j hj1
    · have hji : j = i := by simpa using hj2
      subst hji
      rw [get?_set_self', hget]
      rfl
  · exact List.nodup_append.2 ⟨inv.cvNodup, List.nodup_singleton i,
      fun a ha hb => hicv ((List.mem_singleton.1 hb) ▸ ha)⟩
  · intro j hj
    rcases get?_set_cases hj with ⟨rfl, hcon, _⟩ | ⟨hne, hold⟩
    · exact WPC.noConfusion hcon
    · exact inv.topNE j hold
  · intro j h hj
    rcases get?_set_cases hj with ⟨rfl, hcon, _⟩ | ⟨hne, hold⟩
    · exact WPC.noConfusion hcon
    · exact inv.popHead j h hold
  · intro a
    have hset := count_handsOf_set c.pcs i (WPC.waitCheckF e1) WPC.waiting a hget
    have hacc := inv.acc a
    simp only [inHand, Option.toList, List.count_nil] at hset
    simp only at hacc ⊢
    omega
  · intro j hj
    rcases get?_set_cases hj with ⟨rfl, hcon, _⟩ | ⟨hne, hold⟩
    · exact WPC.noConfusion hcon
    · exact inv.ceFlag j hold
  · intro j hj
    rcases get?_set_cases hj with ⟨rfl, hcon, _⟩ | ⟨hne, hold⟩
    · exact WPC.noConfusion hcon
    · exact inv.exFlag j hold
  · intro j hj
    rcases get?_set_cases hj with ⟨rfl, hcon, _⟩ | ⟨hne, hold⟩
    · exact WPC.noConfusion hcon
    · exact inv.exRem j hold
  · intro h3
    exact absurd (inv.sdDone h3 i _ hget) (fun hcon => WPC.noConfusion hcon)

/-- Invariant preservation for `_tasks.pop()`: the dequeued head moves from
the queue into the worker's hands. -/
theorem inv_takePop {n : Nat} {c : Config} {i : Nat} {h hd : Nat}
    {rest : List Nat}
    (inv : PoolInv n c) (hget : c.pcs.get? i = some (WPC.takePop h))
    (hq : c.tasks.q = hd :: rest) :
    PoolInv n { c with
                tasks := ⟨rest⟩
                removed := c.removed ++ [h]
                pcs := c.pcs.set i (WPC.postTake (some h)) } := by
  have hmi : c.mtx = some i := inv.mtxHold i _ hget rfl
  have hhd : hd = h := by
    have hph := inv.popHead i h hget
    rw [hq] at hph
    simpa using hph
  subst hhd
  refine ⟨?_, ?_, inv.ids, ?_, ?_, inv.cvNodup, ?_, ?_, ?_, ?_, ?_, ?_, ?_⟩
  · simp [List.length_set, inv.lenPcs]
  · have hl := inv.ledger
    rw [hq] at hl
    simp only at hl ⊢
    rw [List.append_assoc, List.singleton_append]
    exact hl
  · intro j q hq' hh
    rcases get?_set_cases hq' with ⟨rfl, rfl, _⟩ | ⟨hne, hold⟩
    · exact hmi
    · exact inv.mtxHold j q hold hh
  · intro j hj
    have hjw := inv.cvWait j hj
    have hji : j ≠ i := by
      intro hji
      subst hji
      rw [hget] at hjw
      exact WPC.noConfusion (Option.some.inj hjw)
    rw [get?_set_ne' c.pcs i j _ (fun hij => hji hij.symm)]
    exact hjw
  · intro j hj
    rcases get?_set_cases hj with ⟨rfl, hcon, _⟩ | ⟨hne, hold⟩
    · exact WPC.noConfusion hcon
    · have hj2 := inv.mtxHold j _ hold rfl
      rw [hmi] at hj2
      exact absurd (Option.some.inj hj2).symm hne
  · intro j h' hj
    rcases get?_set_cases hj with ⟨rfl, hcon, _⟩ | ⟨hne, hold⟩
    · exact WPC.noConfusion hcon
    · have hj2 := inv.mtxHold j _ hold rfl
      rw [hmi] at hj2
      exact absurd (Option.some.inj hj2).symm hne
  · intro a
    have hset := count_handsOf_set c.pcs i (WPC.takePop hd) (WPC.postTake (some hd)) a hget
    have hacc := inv.acc a
    simp only [inHand, Option.toList, List.count_nil] at hset
    simp only [List.count_append] at hacc ⊢
    omega
  · intro j hj
    rcases get?_set_cases hj with ⟨rfl, hcon, _⟩ | ⟨hne, hold⟩
    · exact WPC.noConfusion hcon
    · exact inv.ceFlag j hold
  · intro j hj
    rcases get?_set_cases hj with ⟨rfl, hcon, _⟩ | ⟨hne, hold⟩
    · exact WPC.noConfusion hcon
    · exact inv.exFlag j hold
  · intro j hj t ht
    rcases get?_set_cases hj with ⟨rfl, hcon, _⟩ | ⟨hne, hold⟩
    · exact WPC.noConfusion hcon
    · exact List.mem_append_left _ (inv.exRem j hold t ht)
  · intro h3
    exact absurd (inv.sdDone h3 i _ hget) (fun hcon => WPC.noConfusion hcon)

/-- Invariant preservation for `func()`: the task in the worker's hands is
executed (still under `_mtx`). -/
theorem inv_exec {n : Nat} {c : Config} {i : Nat} {h : Nat}
    (inv : PoolInv n c) (hget : c.pcs.get? i = some (WPC.executing h)) :
    PoolInv n { c with
                execed := c.execed ++ [h]
                pcs := c.pcs.set i WPC.unlock } := by
  have hmi : c.mtx = some i := inv.mtxHold i _ hget rfl
  refine ⟨?_, inv.ledger, inv.ids, ?_, ?_, inv.cvNodup, ?_, ?_, ?_, ?_, ?_, ?_, ?_⟩
  · simp [List.length_set, inv.lenPcs]
  · intro j q hq hh
    rcases get?_set_cases hq with ⟨rfl, rfl, _⟩ | ⟨hne, hold⟩
    · exact hmi
    · exact inv.mtxHold j q hold hh
  · intro j hj
    have hjw := inv.cvWait j hj
    have hji : j ≠ i := by
      intro hji
      subst hji
      rw [hget] at hjw
      exact WPC.noConfusion (Option.some.inj hjw)
    rw [get?_set_ne' c.pcs i j _ (fun hij => hji hij.symm)]
    exact hjw
  · intro j hj
    rcases get?_set_cases hj with ⟨rfl, hcon, _⟩ | ⟨hne, hold⟩
    · exact WPC.noConfusion hcon
    · exact inv.topNE j hold
  · intro j h' hj
    rcases get?_set_cases hj with ⟨rfl, hcon, _⟩ | ⟨hne, hold⟩
    · exact WPC.noConfusion hcon
    · exact inv.popHead j h' hold
  · intro a
    have hset := count_handsOf_set c.pcs i (WPC.executing h) WPC.unlock a hget
    have hacc := inv.acc a
    simp only [inHand, Option.toList, List.count_nil] at hset
    simp only [List.count_append] at hacc ⊢
    omega
  · intro j hj
    rcases get?_set_cases hj with ⟨rfl, hcon, _⟩ | ⟨hne, hold⟩
    · exact WPC.noConfusion hcon
    · exact inv.ceFlag j hold
  · intro j hj
    rcases get?_set_cases hj with ⟨rfl, hcon, _⟩ | ⟨hne, hold⟩
    · exact WPC.noConfusion hcon
    · exact inv.exFlag j hold
  · intro j hj
    rcases get?_set_cases hj with ⟨rfl, hcon, _⟩ | ⟨hne, hold⟩
    · exact WPC.noConfusion hcon
    · exact inv.exRem j hold
  · intro h3
    exact absurd (inv.sdDone h3 i _ hget) (fun hcon => WPC.noConfusion hcon)

/-- Invariant preservation under any single worker action. -/
theorem inv_wstep {n : Nat} {c c' : Config} {i : Nat} {pc : WPC}
    (inv : PoolInv n c) (hget : c.pcs.get? i = some pc)
    (hstep : wstepAux c i pc = some c') : PoolInv n c' := by
  cases pc with
  | checkFlag =>
    simp only [wstepAux, Option.some.injEq] at hstep
    subst hstep
    by_cases hf : c.flag = true
    · rw [if_pos hf]
      exact inv_set_pc inv i _ _ c.mtx hget (fun hx => WPC.noConfusion hx)
        (fun hx => WPC.noConfusion hx) (fun hh => Bool.noConfusion hh)
        (fun j q _ hq hh => inv.mtxHold j q hq hh) rfl
        (fun hx => WPC.noConfusion hx) (fun h hx => WPC.noConfusion hx)
        (fun _ => hf) (fun hx => WPC.noConfusion hx) (fun hx => WPC.noConfusion hx)
    · rw [if_neg hf]
      exact inv_set_pc inv i _ _ c.mtx hget (fun hx => WPC.noConfusion hx)
        (fun hx => WPC.noConfusion hx) (fun hh => Bool.noConfusion hh)
        (fun j q _ hq hh => inv.mtxHold j q hq hh) rfl
        (fun hx => WPC.noConfusion hx) (fun h hx => WPC.noConfusion hx)
        (fun hx => WPC.noConfusion hx) (fun hx => WPC.noConfusion hx)
        (fun hx => WPC.noConfusion hx)
  | checkEmptyTop =>
    simp only [wstepAux, Option.some.injEq] at hstep
    subst hstep
    by_cases he : c.tasks.empty = true
    · rw [if_pos he]
      refine inv_set_pc inv i _ _ c.mtx hget (fun hx => WPC.noConfusion hx)
        (fun hx => WPC.noConfusion hx) (fun hh => Bool.noConfusion hh)
        (fun j q _ hq hh => inv.mtxHold j q hq hh) rfl
        (fun hx => WPC.noConfusion hx) (fun h hx => WPC.noConfusion hx)
        (fun hx => WPC.noConfusion hx) (fun _ => inv.ceFlag i hget) ?_
      intro _ t ht
      have hqnil : c.tasks.q = [] := by
        cases hq2 : c.tasks.q with
        | nil => rfl
        | cons a tl =>
          have he' : c.tasks.q.isEmpty = true := he
          rw [hq2] at he'
          exact Bool.noConfusion he'
      have hrem : c.removed = c.pushed.map Prod.fst := by
        have hl := inv.ledger
        rw [hqnil, List.append_nil] at hl
        exact hl
      rw [hrem]
      exact List.mem_map_of_mem Prod.fst ht
    · rw [if_neg he]
      exact inv_set_pc inv i _ _ c.mtx hget (fun hx => WPC.noConfusion hx)
        (fun hx => WPC.noConfusion hx) (fun hh => Bool.noConfusion hh)
        (fun j q _ hq hh => inv.mtxHold j q hq hh) rfl
        (fun hx => WPC.noConfusion hx) (fun h hx => WPC.noConfusion hx)
        (fun hx => WPC.noConfusion hx) (fun hx => WPC.noConfusion hx)
        (fun hx => WPC.noConfusion hx)
  | acquire =>
    simp only [wstepAux] at hstep
    split at hstep
    · rename_i hm
      injection hstep with hstep
      subst hstep
      exact inv_set_pc inv i _ _ (some i) hget (fun hx => WPC.noConfusion hx)
        (fun hx => WPC.noConfusion hx) (fun _ => rfl)
        (fun j q hne hq hh => Option.noConfusion (hm ▸ inv.mtxHold j q hq hh))
        rfl (fun hx => WPC.noConfusion hx) (fun h hx => WPC.noConfusion hx)
        (fun hx => WPC.noConfusion hx) (fun hx => WPC.noConfusion hx)
        (fun hx => WPC.noConfusion hx)
    · exact Option.noConfusion hstep
  | waitCheckE =>
    simp only [wstepAux, Option.some.injEq] at hstep
    subst hstep
    exact inv_set_pc inv i _ _ c.mtx hget (fun hx => WPC.noConfusion hx)
      (fun hx => WPC.noConfusion hx) (fun _ => inv.mtxHold i _ hget rfl)
      (fun j q _ hq hh => inv.mtxHold j q hq hh) rfl
      (fun hx => WPC.noConfusion hx) (fun h hx => WPC.noConfusion hx)
      (fun hx => WPC.noConfusion hx) (fun hx => WPC.noConfusion hx)
      (fun hx => WPC.noConfusion hx)
  | waitCheckF e1 =>
    simp only [wstepAux] at hstep
    by_cases hg : (e1 && !c.flag) = true
    · rw [if_pos hg] at hstep
      injection hstep with hstep
      subst hstep
      exact inv_wait inv hget
    · rw [if_neg hg] at hstep
      injection hstep with hstep
      subst hstep
      exact inv_set_pc inv i _ _ c.mtx hget (fun hx => WPC.noConfusion hx)
        (fun hx => WPC.noConfusion hx) (fun _ => inv.mtxHold i _ hget rfl)
        (fun j q _ hq hh => inv.mtxHold j q hq hh) rfl
        (fun hx => WPC.noConfusion hx) (fun h hx => WPC.noConfusion hx)
        (fun hx => WPC.noConfusion hx) (fun hx => WPC.noConfusion hx)
        (fun hx => WPC.noConfusion hx)
  | waiting => exact absurd hstep (by simp [wstepAux])
  | reacquire =>
    simp only [wstepAux] at hstep
    split at hstep
    · rename_i hm
      injection hstep with hstep
      subst hstep
      exact inv_set_pc inv i _ _ (some i) hget (fun hx => WPC.noConfusion hx)
        (fun hx => WPC.noConfusion hx) (fun _ => rfl)
        (fun j q hne hq hh => Option.noConfusion (hm ▸ inv.mtxHold j q hq hh))
        rfl (fun hx => WPC.noConfusion hx) (fun h hx => WPC.noConfusion hx)
        (fun hx => WPC.noConfusion hx) (fun hx => WPC.noConfusion hx)
        (fun hx => WPC.noConfusion hx)
    · exact Option.noConfusion hstep
  | checkEmpty2 =>
    simp only [wstepAux, Option.some.injEq] at hstep
    subst hstep
    by_cases he : c.tasks.empty = true
    · rw [if_pos he]
      exact inv_set_pc inv i _ _ c.mtx hget (fun hx => WPC.noConfusion hx)
        (fun hx => WPC.noConfusion hx) (fun _ => inv.mtxHold i _ hget rfl)
        (fun j q _ hq hh => inv.mtxHold j q hq hh) rfl
        (fun hx => WPC.noConfusion hx) (fun h hx => WPC.noConfusion hx)
        (fun hx => WPC.noConfusion hx) (fun hx => WPC.noConfusion hx)
        (fun hx => WPC.noConfusion hx)
    · rw [if_neg he]
      refine inv_set_pc inv i _ _ c.mtx hget (fun hx => WPC.noConfusion hx)
        (fun hx => WPC.noConfusion hx) (fun _ => inv.mtxHold i _ hget rfl)
        (fun j q _ hq hh => inv.mtxHold j q hq hh) rfl
        (fun _ => ?_) (fun h hx => WPC.noConfusion hx)
        (fun hx => WPC.noConfusion hx) (fun hx => WPC.noConfusion hx)
        (fun hx => WPC.noConfusion hx)
      intro hq0
      apply he
      have he' : c.tasks.q.isEmpty = true := by rw [hq0]; rfl
      exact he'
  | takeTop =>
    simp only [wstepAux] at hstep
    split at hstep
    · rename_i h ht
      injection hstep with hstep
      subst hstep
      refine inv_set_pc inv i _ _ c.mtx hget (fun hx => WPC.noConfusion hx)
        (fun hx => WPC.noConfusion hx) (fun _ => inv.mtxHold i _ hget rfl)
        (fun j q _ hq hh => inv.mtxHold j q hq hh) rfl
        (fun hx => WPC.noConfusion hx) ?_
        (fun hx => WPC.noConfusion hx) (fun hx => WPC.noConfusion hx)
        (fun hx => WPC.noConfusion hx)
      intro h' hx
      cases hx
      exact ht
    · exact Option.noConfusion hstep
  | takePop h =>
    simp only [wstepAux] at hstep
    split at hstep
    · rename_i q' hpq
      injection hstep with hstep
      subst hstep
      cases hq : c.tasks.q with
      | nil =>
        rw [SageQueue.pop?, hq] at hpq
        exact Option.noConfusion hpq
      | cons hd rest =>
        rw [SageQueue.pop?, hq] at hpq
        injection hpq with hpq
        subst hpq
        exact inv_takePop inv hget hq
    · exact Option.noConfusion hstep
  | postTake g =>
    cases g with
    | some h =>
      simp only [wstepAux, Option.some.injEq] at hstep
      subst hstep
      exact inv_set_pc inv i _ _ c.mtx hget (fun hx => WPC.noConfusion hx)
        (fun hx => WPC.noConfusion hx) (fun _ => inv.mtxHold i _ hget rfl)
        (fun j q _ hq hh => inv.mtxHold j q hq hh) rfl
        (fun hx => WPC.noConfusion hx) (fun h' hx => WPC.noConfusion hx)
        (fun hx => WPC.noConfusion hx) (fun hx => WPC.noConfusion hx)
        (fun hx => WPC.noConfusion hx)
    | none =>
      simp only [wstepAux, Option.some.injEq] at hstep
      subst hstep
      exact inv_set_pc inv i _ _ c.mtx hget (fun hx => WPC.noConfusion hx)
        (fun hx => WPC.noConfusion hx) (fun _ => inv.mtxHold i _ hget rfl)
        (fun j q _ hq hh => inv.mtxHold j q hq hh) rfl
        (fun hx => WPC.noConfusion hx) (fun h' hx => WPC.noConfusion hx)
        (fun hx => WPC.noConfusion hx) (fun hx => WPC.noConfusion hx)
        (fun hx => WPC.noConfusion hx)
  | executing h =>
    simp only [wstepAux, Option.some.injEq] at hstep
    subst hstep
    exact inv_exec inv hget
  | unlock =>
    simp only [wstepAux, Option.some.injEq] at hstep
    subst hstep
    exact inv_set_pc inv i _ _ none hget (fun hx => WPC.noConfusion hx)
      (fun hx => WPC.noConfusion hx) (fun hh => Bool.noConfusion hh)
      (fun j q hne hq hh => absurd
        (Option.some.inj ((inv.mtxHold i _ hget rfl).symm.trans (inv.mtxHold j q hq hh)))
        (fun hij => hne hij.symm))
      rfl (fun hx => WPC.noConfusion hx) (fun h hx => WPC.noConfusion hx)
      (fun hx => WPC.noConfusion hx) (fun hx => WPC.noConfusion hx)
      (fun hx => WPC.noConfusion hx)
  | exited => exact absurd hstep (by simp [wstepAux])

/-- Invariant preservation for `submit`'s push: `_tasks.push(...)` appends
the new task id, recorded with the current value of the shutdown flag. -/
theorem inv_subPush {n : Nat} {c : Config} (inv : PoolInv n c) :
    PoolInv n { c with
                tasks := c.tasks.push c.nextId
                pushed := c.pushed ++ [(c.nextId, !c.flag)]
                nextId := c.nextId + 1
                pending := c.pending + 1 } := by
  refine ⟨inv.lenPcs, ?_, ?_, inv.mtxHold, inv.cvWait, inv.cvNodup, ?_, ?_,
    inv.acc, inv.ceFlag, inv.exFlag, ?_, inv.sdDone⟩
  · simp only [SageQueue.push, List.map_append, List.map_cons, List.map_nil]
    rw [← List.append_assoc, inv.ledger]
  · simp [List.map_append, inv.ids, List.range_succ]
  · intro i hi
    simp [SageQueue.push]
  · intro i h hi
    have hold := inv.popHead i h hi
    cases hq : c.tasks.q with
    | nil => rw [hq] at hold; exact Option.noConfusion hold
    | cons a t =>
      rw [hq] at hold
      simp only [SageQueue.push, hq, List.cons_append]
      simpa using hold
  · intro i hi t ht
    have hf := inv.exFlag i hi
    rcases List.mem_append.1 ht with h1 | h2
    · exact inv.exRem i hi t h1
    · have := List.mem_singleton.1 h2
      have hsnd : true = !c.flag := congrArg Prod.snd this
      rw [hf] at hsnd
      exact Bool.noConfusion hsnd

/-- Invariant preservation for waking one blocked worker (a delivered
`notify_one` or a spurious wakeup): it leaves the wait set and proceeds to
re-acquire `_mtx` inside `wait`. -/
theorem inv_wake {n : Nat} {c : Config} {j : Nat} (inv : PoolInv n c)
    (hj : j ∈ c.cv) (newPending : Nat) :
    PoolInv n { c with
                pending := newPending
                cv := c.cv.erase j
                pcs := c.pcs.set j WPC.reacquire } := by
  have hw : c.pcs.get? j = some WPC.waiting := inv.cvWait j hj
  refine ⟨?_, inv.ledger, inv.ids, ?_, ?_, ?_, ?_, ?_, ?_, ?_, ?_, ?_, ?_⟩
  · simp [List.length_set, inv.lenPcs]
  · intro k q hq hh
    rcases get?_set_cases hq with ⟨rfl, rfl, _⟩ | ⟨hne, hold⟩
    · exact Bool.noConfusion hh
    · exact inv.mtxHold k q hold hh
  · intro k hk
    have hkcv := List.mem_of_mem_erase hk
    have hkj : k ≠ j := ((inv.cvNodup.mem_erase_iff).1 hk).1
    rw [get?_set_ne' c.pcs j k _ (fun hjk => hkj hjk.symm)]
    exact inv.cvWait k hkcv
  · exact inv.cvNodup.erase j
  · intro k hk
    rcases get?_set_cases hk with ⟨rfl, hcon, _⟩ | ⟨hne, hold⟩
    · exact WPC.noConfusion hcon
    · exact inv.topNE k hold
  · intro k h hk
    rcases get?_set_cases hk with ⟨rfl, hcon, _⟩ | ⟨hne, hold⟩
    · exact WPC.noConfusion hcon
    · exact inv.popHead k h hold
  · intro a
    have hset := count_handsOf_set c.pcs j WPC.waiting WPC.reacquire a hw
    have hacc := inv.acc a
    simp only [inHand, Option.toList, List.count_nil] at hset
    simp only at hacc ⊢
    omega
  · intro k hk
    rcases get?_set_cases hk with ⟨rfl, hcon, _⟩ | ⟨hne, hold⟩
    · exact WPC.noConfusion hcon
    · exact inv.ceFlag k hold
  · intro k hk
    rcases get?_set_cases hk with ⟨rfl, hcon, _⟩ | ⟨hne, hold⟩
    · exact WPC.noConfusion hcon
    · exact inv.exFlag k hold
  · intro k hk
    rcases get?_set_cases hk with ⟨rfl, hcon, _⟩ | ⟨hne, hold⟩
    · exact WPC.noConfusion hcon
    · exact inv.exRem k hold
  · intro h3
    exact absurd (inv.sdDone h3 j _ hw) (fun hcon => WPC.noConfusion hcon)

/-- Invariant preservation for the whole transition function. -/
theorem inv_step {n : Nat} {c c' : Config} {l : Label}
    (inv : PoolInv n c) (hstep : step c l = some c') : PoolInv n c' := by
  cases l with
  | wstep i =>
    simp only [step] at hstep
    cases hget : c.pcs.get? i with
    | none => rw [hget] at hstep; exact Option.noConfusion hstep
    | some pc => rw [hget] at hstep; exact inv_wstep inv hget hstep
  | subPush =>
    simp only [step, Option.some.injEq] at hstep
    subst hstep
    exact inv_subPush inv
  | subNotify j =>
    simp only [step] at hstep
    split at hstep
    · exact Option.noConfusion hstep
    · rename_i p _
      split at hstep
      · injection hstep with hstep
        subst hstep
        exact ⟨inv.lenPcs, inv.ledger, inv.ids, inv.mtxHold, inv.cvWait,
          inv.cvNodup, inv.topNE, inv.popHead, inv.acc, inv.ceFlag,
          inv.exFlag, inv.exRem, inv.sdDone⟩
      · split at hstep
        · rename_i hjc
          injection hstep with hstep
          subst hstep
          exact inv_wake inv hjc p
        · exact Option.noConfusion hstep
  | spurious j =>
    simp only [step] at hstep
    by_cases hjc : j ∈ c.cv
    · rw [if_pos hjc] at hstep
      injection hstep with hstep
      subst hstep
      exact inv_wake inv hjc c.pending
    · rw [if_neg hjc] at hstep
      exact Option.noConfusion hstep
  | sdSetFlag =>
    simp only [step] at hstep
    by_cases h0 : c.sd = 0
    · rw [if_pos h0] at hstep
      injection hstep with hstep
      subst hstep
      refine ⟨inv.lenPcs, inv.ledger, inv.ids, inv.mtxHold, inv.cvWait,
        inv.cvNodup, inv.topNE, inv.popHead, inv.acc, ?_, ?_, inv.exRem, ?_⟩
      · intro i _; rfl
      · intro i _; rfl
      · intro h3
        simp at h3
    · rw [if_neg h0] at hstep
      exact Option.noConfusion hstep
  | sdNotifyAll =>
    simp only [step] at hstep
    by_cases h1 : c.sd = 1
    · rw [if_pos h1] at hstep
      injection hstep with hstep
      subst hstep
      refine ⟨?_, inv.ledger, inv.ids, ?_, ?_, List.nodup_nil, ?_, ?_, ?_,
        ?_, ?_, ?_, ?_⟩
      · simp [wakeAll_length, inv.lenPcs]
      · intro k q hq hh
        rw [wakeAll_get? c.cv c.pcs k] at hq
        by_cases hk : k ∈ c.cv
        · rw [if_pos hk] at hq
          cases hg : c.pcs.get? k with
          | none => rw [hg] at hq; exact Option.noConfusion hq
          | some w =>
            rw [hg] at hq
            simp only [Option.map_some', Option.some.injEq] at hq
            subst hq
            exact Bool.noConfusion hh
        · rw [if_neg hk] at hq
          exact inv.mtxHold k q hq hh
      · intro k hk; cases hk
      · intro k hk
        rw [wakeAll_get? c.cv c.pcs k] at hk
        by_cases hkc : k ∈ c.cv
        · rw [if_pos hkc] at hk
          cases hg : c.pcs.get? k with
          | none => rw [hg] at hk; exact Option.noConfusion hk
          | some w =>
            rw [hg] at hk
            simp only [Option.map_some', Option.some.injEq] at hk
            exact WPC.noConfusion hk
        · rw [if_neg hkc] at hk
          exact inv.topNE k hk
      · intro k h hk
        rw [wakeAll_get? c.cv c.pcs k] at hk
        by_cases hkc : k ∈ c.cv
        · rw [if_pos hkc] at hk
          cases hg : c.pcs.get? k with
          | none => rw [hg] at hk; exact Option.noConfusion hk
          | some w =>
            rw [hg] at hk
            simp only [Option.map_some', Option.some.injEq] at hk
            exact WPC.noConfusion hk
        · rw [if_neg hkc] at hk
          exact inv.popHead k h hk
      · intro a
        have hcw := count_handsOf_wakeAll c.cv c.pcs inv.cvNodup inv.cvWait a
        simp only at hcw ⊢
        rw [hcw]
        exact inv.acc a
      · intro k hk
        rw [wakeAll_get? c.cv c.pcs k] at hk
        by_cases hkc : k ∈ c.cv
        · rw [if_pos hkc] at hk
          cases hg : c.pcs.get? k with
          | none => rw [hg] at hk; exact Option.noConfusion hk
          | some w =>
            rw [hg] at hk
            simp only [Option.map_some', Option.some.injEq] at hk
            exact WPC.noConfusion hk
        · rw [if_neg hkc] at hk
          exact inv.ceFlag k hk
      · intro k hk
        rw [wakeAll_get? c.cv c.pcs k] at hk
        by_cases hkc : k ∈ c.cv
        · rw [if_pos hkc] at hk
          cases hg : c.pcs.get? k with
          | none => rw [hg] at hk; exact Option.noConfusion hk
          | some w =>
            rw [hg] at hk
            simp only [Option.map_some', Option.some.injEq] at hk
            exact WPC.noConfusion hk
        · rw [if_neg hkc] at hk
          exact inv.exFlag k hk
      · intro k hk
        rw [wakeAll_get? c.cv c.pcs k] at hk
        by_cases hkc : k ∈ c.cv
        · rw [if_pos hkc] at hk
          cases hg : c.pcs.get? k with
          | none => rw [hg] at hk; exact Option.noConfusion hk
          | some w =>
            rw [hg] at hk
            simp only [Option.map_some', Option.some.injEq] at hk
            exact WPC.noConfusion hk
        · rw [if_neg hkc] at hk
          exact inv.exRem k hk
      · intro h3
        simp at h3
    · rw [if_neg h1] at hstep
      exact Option.noConfusion hstep
  | sdJoin =>
    simp only [step] at hstep
    by_cases h2 : (c.sd = 2 && allExited c.pcs) = true
    · rw [if_pos h2] at hstep
      injection hstep with hstep
      subst hstep
      have h2' := h2
      rw [Bool.and_eq_true] at h2'
      have hall : allExited c.pcs = true := h2'.2
      refine ⟨inv.lenPcs, inv.ledger, inv.ids, inv.mtxHold, inv.cvWait,
        inv.cvNodup, inv.topNE, inv.popHead, inv.acc, inv.ceFlag,
        inv.exFlag, inv.exRem, ?_⟩
      intro _ i pc hget
      have hmem := List.get?_mem hget
      have := List.all_eq_true.1 hall pc hmem
      exact of_decide_eq_true this
    · rw [if_neg h2] at hstep
      exact Option.noConfusion hstep

/-- The invariant holds along any schedule. -/
theorem runSched_inv {n : Nat} :
    ∀ (ls : List Label) (c c' : Config), PoolInv n c →
    runSched ls c = some c' → PoolInv n c' := by
  intro ls
  induction ls with
  | nil =>
    intro c c' inv h
    simp only [runSched, Option.some.injEq] at h
    subst h
    exact inv
  | cons l rest ih =>
    intro c c' inv h
    simp only [runSched] at h
    cases hs : step c l with
    | none => rw [hs] at h; exact Option.noConfusion h
    | some c1 =>
      rw [hs] at h
      exact ih c1 c' (inv_step inv hs) h

/-- Every reachable configuration satisfies the invariant. -/
theorem reachable_inv {n : Nat} {c : Config} (h : ReachableCfg n c) :
    PoolInv n c := by
  rcases h with ⟨ls, hr⟩
  exact runSched_inv ls (initConfig n) c (inv_init n) hr

/-- C1: if `shutdown()` has returned (it joins every worker, and a worker
exits its loop only after observing the shutdown flag set AND the queue
empty), then every task enqueued before the shutdown request has been
executed exactly once. -/
theorem shutdown_runs_each_enqueued_task_once (n : Nat) (hn : 0 < n)
    (c : Config) (hr : ReachableCfg n c) (hsd : c.sd = 3) :
    ∀ t, (t, true) ∈ c.pushed → c.execed.count t = 1 := by
  intro t ht
  have inv := reachable_inv hr
  have hall : ∀ i pc, c.pcs.get? i = some pc → pc = WPC.exited := inv.sdDone hsd
  have hlen : 0 < c.pcs.length := by rw [inv.lenPcs]; exact hn
  obtain ⟨pc0, hg0⟩ : ∃ pc0, c.pcs.get? 0 = some pc0 := by
    cases hpcs : c.pcs with
    | nil => rw [hpcs] at hlen; exact absurd hlen (by decide)
    | cons a tl => exact ⟨a, by simp [hpcs]⟩
  have hex0 : c.pcs.get? 0 = some WPC.exited := by
    rw [hg0]
    rw [hall 0 pc0 hg0]
  have htrem : t ∈ c.removed := inv.exRem 0 hex0 t ht
  have hhands : handsOf c.pcs = [] := by
    apply handsOf_eq_nil
    intro pc hpc
    obtain ⟨i, hgi⟩ := List.mem_iff_get?.1 hpc
    exact hall i pc hgi
  have hacc := inv.acc t
  rw [hhands] at hacc
  simp only [List.count_nil, Nat.add_zero] at hacc
  have hsub : c.removed.Sublist (List.range c.nextId) := by
    have h1 : c.removed.Sublist (c.removed ++ c.tasks.q) :=
      List.sublist_append_left c.removed c.tasks.q
    rw [inv.ledger, inv.ids] at h1
    exact h1
  have hnd : c.removed.Nodup := (List.nodup_range _).sublist hsub
  rw [← hacc]
  exact List.count_eq_one_of_mem hnd htrem

/-- Schedule for one worker draining one submitted task and the pool then
shutting down cleanly. -/
def drainSched : List Label :=
  [Label.subPush, Label.subNotify 0,
   Label.wstep 0, Label.wstep 0, Label.wstep 0, Label.wstep 0, Label.wstep 0,
   Label.wstep 0, Label.wstep 0, Label.wstep 0, Label.wstep 0, Label.wstep 0,
   Label.sdSetFlag, Label.sdNotifyAll, Label.wstep 0, Label.wstep 0,
   Label.sdJoin]

/-- The configuration after `drainSched`. -/
def drainedCfg : Config :=
  { tasks := ⟨[]⟩, flag := true, mtx := none, cv := [], pcs := [WPC.exited],
    pushed := [(0, true)], removed := [0], execed := [0], nextId := 1,
    pending := 0, sd := 3 }

/-- Witness for C1: in a pool with one worker, the task submitted before
shutdown is executed exactly once by the time `shutdown()` returns. -/
theorem shutdown_runs_each_enqueued_task_once_witness :
    0 < 1 ∧ drainedCfg.sd = 3 ∧ (0, true) ∈ drainedCfg.pushed ∧
    drainedCfg.execed.count 0 = 1 :=
  ⟨by decide, rfl, by decide,
   shutdown_runs_each_enqueued_task_once 1 (by decide) drainedCfg
     ⟨drainSched, by decide⟩ rfl 0 (by decide)⟩

/-- C8: `top()` and `pop()` are undefined exactly on the empty queue, and at
every reachable configuration each worker sitting at a `top()` or `pop()`
call site sees a non-empty queue (the `empty()` check in the worker loop,
serialized by `_mtx` against the only other dequeuers, establishes the
precondition), so the undefined branch is unreachable. -/
theorem dequeue_sites_have_nonempty_queue (n : Nat) (c : Config)
    (hr : ReachableCfg n c) :
    (∀ s : SageQueue Nat, (s.top? = none ↔ s.q = []) ∧ (s.pop? = none ↔ s.q = [])) ∧
    (∀ i, (c.pcs.get? i = some WPC.takeTop →
        c.tasks.q ≠ [] ∧ (c.tasks.top?).isSome ∧ (c.tasks.pop?).isSome) ∧
      (∀ h, c.pcs.get? i = some (WPC.takePop h) →
        c.tasks.q ≠ [] ∧ (c.tasks.pop?).isSome)) := by
  have inv := reachable_inv hr
  constructor
  · intro s
    constructor
    · cases hq : s.q <;> simp [SageQueue.top?, hq]
    · cases hq : s.q <;> simp [SageQueue.pop?, hq]
  · intro i
    constructor
    · intro hi
      have hne := inv.topNE i hi
      cases hq : c.tasks.q with
      | nil => exact absurd hq hne
      | cons a tl =>
        refine ⟨List.cons_ne_nil a tl, ?_, ?_⟩
        · simp [SageQueue.top?, hq]
        · simp [SageQueue.pop?, hq]
    · intro h hi
      have hhd := inv.popHead i h hi
      cases hq : c.tasks.q with
      | nil => rw [hq] at hhd; exact Option.noConfusion hhd
      | cons a tl =>
        refine ⟨by simp [hq], ?_⟩
        simp [SageQueue.pop?, hq]

/-- Schedule leading a worker to the `top()` call site with a queued task. -/
def takeSiteSched : List Label :=
  [Label.subPush, Label.wstep 0, Label.wstep 0, Label.wstep 0, Label.wstep 0,
   Label.wstep 0]

/-- The configuration after `takeSiteSched`: the worker is about to call
`top()` and the queue is non-empty. -/
def takeSiteCfg : Config :=
  { tasks := ⟨[0]⟩, flag := false, mtx := some 0, cv := [],
    pcs := [WPC.takeTop], pushed := [(0, true)], removed := [], execed := [],
    nextId := 1, pending := 1, sd := 0 }

/-- Witness for C8 at a concrete reachable configuration with the worker at
the `top()` call site. -/
theorem dequeue_sites_have_nonempty_queue_witness :
    takeSiteCfg.pcs.get? 0 = some WPC.takeTop ∧
    takeSiteCfg.tasks.q ≠ [] ∧ (takeSiteCfg.tasks.top?).isSome :=
  ⟨rfl,
   ((dequeue_sites_have_nonempty_queue 1 takeSiteCfg
      ⟨takeSiteSched, by decide⟩).2 0).1 rfl |>.1,
   ((dequeue_sites_have_nonempty_queue 1 takeSiteCfg
      ⟨takeSiteSched, by decide⟩).2 0).1 rfl |>.2.1⟩

/-- In a configuration with no worker slots, no step can ever execute a
task or create a worker. -/
theorem step_no_workers {c c' : Config} {l : Label} (h0 : c.pcs = [])
    (hs : step c l = some c') : c'.pcs = [] ∧ c'.execed = c.execed := by
  cases l with
  | wstep i =>
    simp only [step, h0, List.get?_nil] at hs
    exact Option.noConfusion hs
  | subPush =>
    simp only [step, Option.some.injEq] at hs
    subst hs
    exact ⟨h0, rfl⟩
  | subNotify j =>
    simp only [step] at hs
    split at hs
    · exact Option.noConfusion hs
    · split at hs
      · injection hs with hs
        subst hs
        exact ⟨h0, rfl⟩
      · split at hs
        · injection hs with hs
          subst hs
          refine ⟨?_, rfl⟩
          simp only [h0]
          rfl
        · exact Option.noConfusion hs
  | spurious j =>
    simp only [step] at hs
    split at hs
    · injection hs with hs
      subst hs
      refine ⟨?_, rfl⟩
      simp only [h0]
      rfl
    · exact Option.noConfusion hs
  | sdSetFlag =>
    simp only [step] at hs
    split at hs
    · injection hs with hs
      subst hs
      exact ⟨h0, rfl⟩
    · exact Option.noConfusion hs
  | sdNotifyAll =>
    simp only [step] at hs
    split at hs
    · injection hs with hs
      subst hs
      refine ⟨?_, rfl⟩
      have hcv : ∀ cv : List Nat, wakeAll ([] : List WPC) cv = [] := by
        intro cv
        induction cv with
        | nil => rfl
        | cons a tl ih => simpa [wakeAll] using ih
      simp only [h0]
      exact hcv c.cv
    · exact Option.noConfusion hs
  | sdJoin =>
    simp only [step] at hs
    split at hs
    · injection hs with hs
      subst hs
      exact ⟨h0, rfl⟩
    · exact Option.noConfusion hs

/-- Along any schedule from a worker-free configuration, nothing is ever
executed. -/
theorem runSched_no_workers :
    ∀ (ls : List Label) (c c' : Config), c.pcs = [] →
    runSched ls c = some c' → c'.pcs = [] ∧ c'.execed = c.execed := by
  intro ls
  induction ls with
  | nil =>
    intro c c' h0 h
    simp only [runSched, Option.some.injEq] at h
    subst h
    exact ⟨h0, rfl⟩
  | cons l rest ih =>
    intro c c' h0 h
    simp only [runSched] at h
    cases hs : step c l with
    | none => rw [hs] at h; exact Option.noConfusion h
    | some c1 =>
      rw [hs] at h
      have h1 := step_no_workers h0 hs
      have h2 := ih c1 c' h1.1 h
      exact ⟨h2.1, h2.2.trans h1.2⟩

/-- Schedule for a pool constructed with 0 threads: one submit, then a full
`shutdown()` (whose join loop has nothing to join). -/
def zeroSched : List Label :=
  [Label.subPush, Label.subNotify 0, Label.sdSetFlag, Label.sdNotifyAll,
   Label.sdJoin]

/-- The configuration after `zeroSched` on a zero-thread pool: `shutdown()`
has returned, the submitted task is still in the queue, nothing was
executed. -/
def zeroCfg : Config :=
  { tasks := ⟨[0]⟩, flag := true, mtx := none, cv := [], pcs := [],
    pushed := [(0, true)], removed := [], execed := [], nextId := 1,
    pending := 0, sd := 3 }

/-- C10: a pool constructed with thread count 0 is created successfully and
has no workers; `submit()` still enqueues the task (and hands back its
future); `shutdown()` returns with the task still queued and unexecuted; and
along every further schedule the task is never executed, so its future never
becomes ready. -/
theorem zero_thread_pool_loses_task (ls : List Label) (c' : Config)
    (hrun : runSched ls zeroCfg = some c') :
    (initConfig 0).pcs = [] ∧
    runSched zeroSched (initConfig 0) = some zeroCfg ∧
    zeroCfg.sd = 3 ∧ zeroCfg.tasks.q = [0] ∧ zeroCfg.execed = [] ∧
    c'.execed = [] := by
  refine ⟨rfl, by decide, rfl, rfl, rfl, ?_⟩
  have h := runSched_no_workers ls zeroCfg c' rfl hrun
  exact h.2

/-- Witness for C10 at the empty continuation schedule. -/
theorem zero_thread_pool_loses_task_witness :
    runSched zeroSched (initConfig 0) = some zeroCfg ∧
    zeroCfg.sd = 3 ∧ zeroCfg.tasks.q = [0] ∧ zeroCfg.execed = [] :=
  have h := zero_thread_pool_loses_task [] zeroCfg rfl
  ⟨h.2.1, h.2.2.1, h.2.2.2.1, h.2.2.2.2.1⟩

/-- The configuration-error channel the specification's construction
contract would use. -/
inductive ConfigError where
  | nonPositiveThreadCount
deriving DecidableEq, Repr

/-- The constructor `ThreadPool(const int _n_threads)` (ThreadPool.hpp lines
13-17) as written: it value-initializes `_threads(_n_threads)` worker slots
and starts each one; it performs no validation of the thread count and has
no failure path for a zero count, so construction always succeeds.  The
`Except` is the channel through which a configuration error would have to be
reported. -/
def ThreadPool.construct (nThreads : Nat) : Except ConfigError Config :=
  Except.ok (initConfig nThreads)

/-- Counterexample to C6: constructing with thread count 0 is NOT rejected;
it succeeds and produces a pool with zero workers. -/
theorem construct_zero_not_rejected :
    ThreadPool.construct 0 = Except.ok (initConfig 0) ∧
    (initConfig 0).pcs = [] :=
  ⟨rfl, rfl⟩

/-- Amended C6: construction never reports a configuration error; for every
thread count `n` (including 0) it succeeds and spawns exactly `n` workers. -/
theorem construct_always_succeeds (nThreads : Nat) :
    ThreadPool.construct nThreads = Except.ok (initConfig nThreads) ∧
    (initConfig nThreads).pcs.length = nThreads :=
  ⟨rfl, by simp [initConfig]⟩
